import Mathlib

/-!
Verification of the language-detection core of `apidoc` (`input/lang.go`).

The Go source is embedded shallowly:

* Go maps (`langs`, `langExts`) become association lists kept in the
  source's textual order; map iteration order is nondeterministic in Go,
  so every theorem whose truth could depend on that order quantifies over
  an arbitrary permutation of the association list.
* `DetectDirLang` reads a directory via `ioutil.ReadDir`; the listing is
  passed in explicitly as `Except String (List dirEntry)` (the `error`
  case is the I/O failure of `ReadDir`, carried unchanged).
* Machine-independent library helpers (`strings.ToLower`,
  `filepath.Ext`) are reproduced from their documented behaviour
  (ASCII case mapping; suffix from the final dot of the last path
  element).
-/

set_option autoImplicit false

namespace ApiDoc

/-- Modelled from the spec: the `block` struct and its `blockType`
constants are declared in a repository file that is not part of the
provided source (only `lang.go` is given).  The spec's Block Rule has a
`kind` drawn from the closed set String / SingleLineComment /
MultiLineComment and literal `Begin`, `End`, `Escape` delimiter
strings, the latter two defaulting to empty. -/
inductive blockType where
  | str
  | sComment
  | mComment
deriving DecidableEq, Repr

/-- Modelled from the spec: one Block Rule (see `blockType`). -/
structure block where
  kind : blockType
  Begin : String
  End : String := ""
  Escape : String := ""
deriving DecidableEq, Repr

/-- `cStyle` from `lang.go`: the canonical C-style rule list shared by
several languages. -/
def cStyle : List block :=
  [ { kind := .str, Begin := "\"", End := "\"", Escape := "\\" },
    { kind := .sComment, Begin := "//" },
    { kind := .mComment, Begin := "/*", End := "*/" } ]

/-- The `langs` map from `lang.go`, as an association list in the
source's textual order (Go map iteration order is unspecified; theorems
that could depend on it quantify over permutations). -/
def langs : List (String × List block) :=
  [ ("c#", cStyle),
    ("c++", cStyle),
    ("go",
      [ { kind := .str, Begin := "\"", End := "\"", Escape := "\\" },
        { kind := .str, Begin := "`", End := "`" },
        { kind := .sComment, Begin := "//" },
        { kind := .mComment, Begin := "/*", End := "*/" } ]),
    ("java", cStyle),
    ("javascript",
      [ { kind := .str, Begin := "\"", End := "\"", Escape := "\\" },
        { kind := .str, Begin := "'", End := "'", Escape := "\\" },
        { kind := .sComment, Begin := "//" },
        { kind := .mComment, Begin := "/*", End := "*/" },
        { kind := .str, Begin := "/", End := "/", Escape := "\\" } ]),
    ("perl",
      [ { kind := .str, Begin := "\"", End := "\"", Escape := "\\" },
        { kind := .str, Begin := "'", End := "'", Escape := "\\" },
        { kind := .sComment, Begin := "#" },
        { kind := .mComment, Begin := "\n=pod\n", End := "\n=cut\n" } ]),
    ("python",
      [ { kind := .str, Begin := "\"", End := "\"", Escape := "\\" },
        { kind := .sComment, Begin := "#" } ]),
    ("php",
      [ { kind := .str, Begin := "\"", End := "\"", Escape := "\\" },
        { kind := .str, Begin := "'", End := "'", Escape := "\\" },
        { kind := .sComment, Begin := "//" },
        { kind := .mComment, Begin := "/*", End := "*/" } ]),
    ("ruby",
      [ { kind := .str, Begin := "\"", End := "\"", Escape := "\\" },
        { kind := .str, Begin := "'", End := "'", Escape := "\\" },
        { kind := .sComment, Begin := "#" },
        { kind := .mComment, Begin := "\n=begin\n", End := "\n=end\n" } ]),
    ("rust", cStyle),
    ("swift", cStyle) ]

/-- The `langExts` map from `lang.go` (note the dotless `"hpp"` entry,
reproduced verbatim). -/
def langExts : List (String × List String) :=
  [ ("c#", [".cs"]),
    ("c++", [".h", ".c", ".cpp", ".cxx", "hpp"]),
    ("go", [".go"]),
    ("java", [".java"]),
    ("javascript", [".js"]),
    ("perl", [".perl", ".prl", ".pl"]),
    ("php", [".php"]),
    ("python", [".py"]),
    ("ruby", [".rb"]),
    ("rust", [".rs"]) ,
    ("swift", [".swift"]) ]

/-- `Langs()` from `lang.go`: the keys of `langs` (Go emits them in
unspecified map order; only membership is ever relied upon). -/
def Langs : List String := langs.map Prod.fst

/-- Go map indexing `langs[lang]`: first-match association lookup. -/
def langsLookup (lang : String) : Option (List block) :=
  match langs.find? (fun p => p.1 = lang) with
  | some p => some p.2
  | none => none

/-- `langIsSupported` from `lang.go`: `_, found := langs[lang]` with no
normalisation of the argument. -/
def langIsSupported (lang : String) : Bool :=
  (langsLookup lang).isSome

/-- `strings.ToLower` on one character, restricted to the ASCII range
that the catalog and the claims exercise: `A`..`Z` map down by 32,
everything else is unchanged. -/
def goCharToLower (c : Char) : Char :=
  if 65 ≤ c.toNat ∧ c.toNat ≤ 90 then Char.ofNat (c.toNat + 32) else c

/-- `strings.ToLower`, character by character. -/
def goToLower (s : String) : String := ⟨s.data.map goCharToLower⟩

/-- `filepath.Ext`: scan the name from its end; stop at a path
separator; on the first `.` return the suffix from that dot on
(inclusive); otherwise return the empty string.  The first argument
accumulates the characters already passed, in original order. -/
def extLoop : List Char → List Char → List Char
  | _, [] => []
  | acc, c :: rest =>
    if c = '/' then []
    else if c = '.' then c :: acc
    else extLoop (c :: acc) rest

/-- `filepath.Ext` on a file name. -/
def filepathExt (name : String) : String := ⟨extLoop [] name.data.reverse⟩

/-- The body of `getLangByExt`'s double loop over an association list
`catalog`: return the key of the first entry whose extension list
contains `ext`, or `""`. -/
def lookupExtIn (catalog : List (String × List String)) (ext : String) : String :=
  match catalog with
  | [] => ""
  | (lang, exts) :: rest => if ext ∈ exts then lang else lookupExtIn rest ext

/-- `getLangByExt` from `lang.go`: lower-case the argument, then scan
`langExts`. -/
def getLangByExt (ext : String) : String :=
  lookupExtIn langExts (goToLower ext)

/-- One directory entry as `DetectDirLang` consumes it: a name and the
is-directory flag. -/
structure dirEntry where
  name : String
  isDir : Bool
deriving DecidableEq, Repr

/-- `langsMap[lang]++` on an association list: increment in place,
appending a fresh `(lang, 1)` entry when absent. -/
def bump : List (String × Nat) → String → List (String × Nat)
  | [], lang => [(lang, 1)]
  | (k, v) :: rest, lang =>
    if k = lang then (k, v + 1) :: rest else (k, v) :: bump rest lang

/-- The language a directory entry resolves to in `DetectDirLang`:
`getLangByExt(strings.ToLower(filepath.Ext(f.Name())))`. -/
def entryLang (f : dirEntry) : String :=
  getLangByExt (goToLower (filepathExt f.name))

/-- The body of `DetectDirLang`'s tally loop for one entry: skip
directories, resolve the lower-cased extension, and bump the resolved
language's count when the resolution is non-empty. -/
def tallyStep (t : List (String × Nat)) (f : dirEntry) : List (String × Nat) :=
  if f.isDir then t
  else if 0 < (entryLang f).length then bump t (entryLang f) else t

/-- The `langsMap` built by `DetectDirLang`'s first loop, as an
association list in insertion order (Go's map holds the same key/count
multiset; its iteration order is quantified separately). -/
def buildTally (entries : List dirEntry) : List (String × Nat) :=
  entries.foldl tallyStep []

/-- `DetectDirLang`'s selection loop: a single pass that replaces the
best-so-far whenever `v >= cnt`, starting from `("", 0)`. -/
def selectLoop (tally : List (String × Nat)) : String × Nat :=
  tally.foldl (fun best kv => if best.2 ≤ kv.2 then kv else best) ("", 0)

/-- The two failure cases of `DetectDirLang`: the propagated `ReadDir`
error and the `errors.New` not-found failure. -/
inductive detectError where
  | ioErr (e : String)
  | notFound (msg : String)
deriving DecidableEq, Repr

/-- The not-found message of `lang.go` (used verbatim at both return
sites). -/
def noLangMsg : String := "该目录下没有支持的语言文件"

instance {ε α : Type} [DecidableEq ε] [DecidableEq α] : DecidableEq (Except ε α)
  | .ok a, .ok b => decidable_of_iff (a = b) (by simp)
  | .ok _, .error _ => isFalse (by simp)
  | .error _, .ok _ => isFalse (by simp)
  | .error a, .error b => decidable_of_iff (a = b) (by simp)

/-- `DetectDirLang` after the tally is built, taking the tally in the
order Go's map iteration happens to enumerate it. -/
def detectFromTally (enum : List (String × Nat)) : Except detectError String :=
  if enum.length = 0 then .error (.notFound noLangMsg)
  else if 0 < (selectLoop enum).1.length then .ok (selectLoop enum).1
  else .error (.notFound noLangMsg)

/-- `DetectDirLang` with the map enumeration order made explicit:
`res` is the outcome of `ioutil.ReadDir`, and `enum` is the order in
which `range langsMap` visits the tally (any permutation of
`buildTally entries`). -/
def detectDirLangWith (res : Except String (List dirEntry))
    (enum : List (String × Nat)) : Except detectError String :=
  match res with
  | .error e => .error (.ioErr e)
  | .ok _ => detectFromTally enum

/-- `DetectDirLang` with the canonical (insertion-order) enumeration of
the tally. -/
def DetectDirLang (res : Except String (List dirEntry)) : Except detectError String :=
  match res with
  | .error e => .error (.ioErr e)
  | .ok entries => detectFromTally (buildTally entries)

/-- The spec's worked detection example: three `.go` files, two `.py`
files, one unrecognized `.xyz` file, no subdirectories. -/
def demoEntries : List dirEntry :=
  [ ⟨"a.go", false⟩, ⟨"b.go", false⟩, ⟨"c.go", false⟩,
    ⟨"d.py", false⟩, ⟨"e.py", false⟩, ⟨"f.xyz", false⟩ ]

example : filepathExt "a.go" = ".go" := by decide
example : filepathExt "archive.tar.gz" = ".gz" := by decide
example : filepathExt "Makefile" = "" := by decide
example : goToLower ".GO" = ".go" := by decide
example : getLangByExt ".GO" = "go" := by decide
example : getLangByExt ".hpp" = "" := by decide
example : getLangByExt "hpp" = "c++" := by decide
example : buildTally [⟨"a.go", false⟩, ⟨"b.py", false⟩, ⟨"c.go", false⟩]
    = [("go", 2), ("python", 1)] := by decide
example : DetectDirLang (.ok [⟨"a.go", false⟩]) = .ok "go" := by decide
example : DetectDirLang (.ok [⟨"x.hpp", false⟩])
    = .error (.notFound noLangMsg) := by decide
example : DetectDirLang (.error "permission denied")
    = .error (.ioErr "permission denied") := by decide

/-! ### Helper lemmas about the selection loop -/

theorem selectLoop_append (l : List (String × Nat)) (p : String × Nat) :
    selectLoop (l ++ [p]) =
      if (selectLoop l).2 ≤ p.2 then p else selectLoop l := by
  simp [selectLoop, List.foldl_append]

theorem selectLoop_mem (l : List (String × Nat)) (h : l ≠ []) :
    selectLoop l ∈ l := by
  induction l using List.reverseRecOn with
  | nil => exact absurd rfl h
  | append_singleton l p ih =>
    rw [selectLoop_append]
    rcases le_or_lt (selectLoop l).2 p.2 with hle | hlt
    · rw [if_pos hle]
      exact List.mem_append.2 (Or.inr (List.mem_singleton.2 rfl))
    · rw [if_neg (not_le.2 hlt)]
      have hl : l ≠ [] := by
        rintro rfl
        simp [selectLoop] at hlt
      exact List.mem_append.2 (Or.inl (ih hl))

theorem selectLoop_le (l : List (String × Nat)) :
    ∀ kv ∈ l, kv.2 ≤ (selectLoop l).2 := by
  induction l using List.reverseRecOn with
  | nil => intro kv hkv; simp at hkv
  | append_singleton l p ih =>
    intro kv hkv
    rw [selectLoop_append]
    rcases List.mem_append.1 hkv with hmem | hmem
    · rcases le_or_lt (selectLoop l).2 p.2 with hle | hlt
      · rw [if_pos hle]; exact le_trans (ih kv hmem) hle
      · rw [if_neg (not_le.2 hlt)]; exact ih kv hmem
    · rw [List.mem_singleton.1 hmem]
      rcases le_or_lt (selectLoop l).2 p.2 with hle | hlt
      · rw [if_pos hle]
      · rw [if_neg (not_le.2 hlt)]; exact le_of_lt hlt

theorem selectLoop_last (l : List (String × Nat)) (h : l ≠ []) :
    (l.filter (fun kv => kv.2 == (selectLoop l).2)).getLast?
      = some (selectLoop l) := by
  induction l using List.reverseRecOn with
  | nil => exact absurd rfl h
  | append_singleton l p ih =>
    rcases eq_or_ne l [] with rfl | hl
    · simp [selectLoop]
    · rw [selectLoop_append]
      rcases le_or_lt (selectLoop l).2 p.2 with hle | hlt
      · rw [if_pos hle]
        rw [List.filter_append]
        simp
      · rw [if_neg (not_le.2 hlt)]
        rw [List.filter_append]
        have hp : (p.2 == (selectLoop l).2) = false := by
          simp [Nat.ne_of_lt hlt]
        simp only [List.filter, hp]
        simpa using ih hl

/-! ### Helper lemmas about lower-casing -/

theorem goCharToLower_idem (c : Char) :
    goCharToLower (goCharToLower c) = goCharToLower c := by
  unfold goCharToLower
  by_cases h : 65 ≤ c.toNat ∧ c.toNat ≤ 90
  · rw [if_pos h]
    have hv : (c.toNat + 32).isValidChar := Or.inl (by omega)
    have ht : (Char.ofNat (c.toNat + 32)).toNat = c.toNat + 32 := by
      rw [Char.ofNat, dif_pos hv]; rfl
    rw [if_neg (by rw [ht]; omega)]
  · rw [if_neg h, if_neg h]

theorem map_lower_idem (l : List Char) :
    (l.map goCharToLower).map goCharToLower = l.map goCharToLower := by
  induction l with
  | nil => rfl
  | cons c cs ih => simp [goCharToLower_idem c, ih]

theorem goToLower_idem (s : String) :
    goToLower (goToLower s) = goToLower s :=
  congrArg String.mk (map_lower_idem s.data)

/-! ### Helper lemmas about strings -/

theorem str_length_pos (s : String) (h : s ≠ "") : 0 < s.length := by
  cases s with
  | mk data =>
    cases data with
    | nil => exact absurd rfl h
    | cons c cs => simp [String.length]

theorem str_ne_empty (s : String) (h : 0 < s.length) : s ≠ "" := by
  intro he
  rw [he] at h
  simp [String.length] at h

/-! ### Helper lemmas about the tally -/

theorem bump_ne_nil (t : List (String × Nat)) (lang : String) :
    bump t lang ≠ [] := by
  match t with
  | [] => simp [bump]
  | (k, v) :: rest =>
    simp only [bump]
    split <;> simp

theorem bump_good (t : List (String × Nat)) (lang : String)
    (hl : 0 < lang.length)
    (ht : ∀ kv ∈ t, 0 < kv.1.length ∧ 1 ≤ kv.2) :
    ∀ kv ∈ bump t lang, 0 < kv.1.length ∧ 1 ≤ kv.2 := by
  induction t with
  | nil =>
    intro kv hkv
    simp [bump] at hkv
    rw [hkv]
    exact ⟨hl, le_refl 1⟩
  | cons hd tl ih =>
    obtain ⟨k, v⟩ := hd
    intro kv hkv
    simp only [bump] at hkv
    by_cases hk : k = lang
    · rw [if_pos hk] at hkv
      rcases List.mem_cons.1 hkv with rfl | hmem
      · have hkv' := ht (k, v) (List.mem_cons_self _ _)
        exact ⟨hkv'.1, by omega⟩
      · exact ht kv (List.mem_cons_of_mem _ hmem)
    · rw [if_neg hk] at hkv
      rcases List.mem_cons.1 hkv with rfl | hmem
      · exact ht (k, v) (List.mem_cons_self _ _)
      · exact ih (fun q hq => ht q (List.mem_cons_of_mem _ hq)) kv hmem

theorem tallyStep_good (t : List (String × Nat)) (f : dirEntry)
    (ht : ∀ kv ∈ t, 0 < kv.1.length ∧ 1 ≤ kv.2) :
    ∀ kv ∈ tallyStep t f, 0 < kv.1.length ∧ 1 ≤ kv.2 := by
  unfold tallyStep
  split
  · exact ht
  · split
    · next hlang => exact bump_good t _ hlang ht
    · exact ht

theorem tally_good (entries : List dirEntry) :
    ∀ kv ∈ buildTally entries, 0 < kv.1.length ∧ 1 ≤ kv.2 := by
  have general : ∀ (es : List dirEntry) (t : List (String × Nat)),
      (∀ kv ∈ t, 0 < kv.1.length ∧ 1 ≤ kv.2) →
      ∀ kv ∈ es.foldl tallyStep t, 0 < kv.1.length ∧ 1 ≤ kv.2 := by
    intro es
    induction es with
    | nil => intro t ht; simpa using ht
    | cons f fs ih => intro t ht; exact ih _ (tallyStep_good t f ht)
  exact general entries [] (by simp)

theorem tallyStep_ne_nil (t : List (String × Nat)) (f : dirEntry)
    (h : t ≠ []) : tallyStep t f ≠ [] := by
  unfold tallyStep
  by_cases hd : f.isDir = true
  · rw [if_pos hd]; exact h
  · rw [if_neg hd]
    by_cases hl : 0 < (entryLang f).length
    · rw [if_pos hl]; exact bump_ne_nil t _
    · rw [if_neg hl]; exact h

theorem foldl_tallyStep_ne_nil :
    ∀ (es : List dirEntry) (t : List (String × Nat)),
      t ≠ [] → es.foldl tallyStep t ≠ [] := by
  intro es
  induction es with
  | nil => intro t h; simpa using h
  | cons f fs ih => intro t h; exact ih _ (tallyStep_ne_nil t f h)

theorem tallyStep_skip (t : List (String × Nat)) (f : dirEntry)
    (h : f.isDir = true ∨ entryLang f = "") : tallyStep t f = t := by
  unfold tallyStep
  rcases h with h | h
  · rw [if_pos h]
  · by_cases hd : f.isDir = true
    · rw [if_pos hd]
    · rw [if_neg hd, if_neg (by rw [h]; simp [String.length])]

theorem tally_nil_of_skips :
    ∀ (es : List dirEntry),
      (∀ f ∈ es, f.isDir = true ∨ entryLang f = "") →
      ∀ t, es.foldl tallyStep t = t := by
  intro es
  induction es with
  | nil => intro _ t; rfl
  | cons f fs ih =>
    intro h t
    have h1 := h f (List.mem_cons_self _ _)
    simp only [List.foldl_cons, tallyStep_skip t f h1]
    exact ih (fun g hg => h g (List.mem_cons_of_mem _ hg)) t

theorem tally_ne_nil_of_entry :
    ∀ (es : List dirEntry) (t : List (String × Nat)),
      (∃ f ∈ es, f.isDir = false ∧ entryLang f ≠ "") →
      es.foldl tallyStep t ≠ [] := by
  intro es
  induction es with
  | nil => intro t h; simp at h
  | cons f fs ih =>
    intro t h
    rcases h with ⟨g, hg, hgd, hgl⟩
    rcases List.mem_cons.1 hg with rfl | hmem
    · simp only [List.foldl_cons]
      apply foldl_tallyStep_ne_nil fs (tallyStep t g)
      unfold tallyStep
      rw [if_neg (by rw [hgd]; simp), if_pos (str_length_pos _ hgl)]
      exact bump_ne_nil t _
    · exact ih _ ⟨g, hmem, hgd, hgl⟩

/-! ### Helper lemmas about the extension catalog -/

theorem langExts_pairwise :
    ∀ p ∈ langExts, ∀ q ∈ langExts, ∀ e ∈ p.2, e ∈ q.2 → p.1 = q.1 := by
  decide

theorem lookupExtIn_perm (ext : String) :
    ∀ {l₁ l₂ : List (String × List String)}, l₁.Perm l₂ →
      (∀ p ∈ l₁, ∀ q ∈ l₁, ext ∈ p.2 → ext ∈ q.2 → p.1 = q.1) →
      lookupExtIn l₁ ext = lookupExtIn l₂ ext := by
  intro l₁ l₂ hp
  induction hp with
  | nil => intro _; rfl
  | cons x hp ih =>
    intro hu
    obtain ⟨k, exts⟩ := x
    simp only [lookupExtIn]
    split
    · rfl
    · exact ih fun p hp' q hq' =>
        hu p (List.mem_cons_of_mem _ hp') q (List.mem_cons_of_mem _ hq')
  | swap x y t =>
    intro hu
    obtain ⟨k₁, e₁⟩ := x
    obtain ⟨k₂, e₂⟩ := y
    simp only [lookupExtIn]
    by_cases h₂ : ext ∈ e₂
    · rw [if_pos h₂]
      by_cases h₁ : ext ∈ e₁
      · rw [if_pos h₁]
        exact hu (k₂, e₂) (List.mem_cons_self _ _)
          (k₁, e₁) (List.mem_cons_of_mem _ (List.mem_cons_self _ _)) h₂ h₁
      · rw [if_neg h₁, if_pos h₂]
    · rw [if_neg h₂]
      by_cases h₁ : ext ∈ e₁
      · rw [if_pos h₁, if_pos h₁]
      · rw [if_neg h₁, if_neg h₁, if_neg h₂]
  | trans hp₁ hp₂ ih₁ ih₂ =>
    intro hu
    refine (ih₁ hu).trans (ih₂ ?_)
    intro p hp' q hq'
    exact hu p (hp₁.mem_iff.2 hp') q (hp₁.mem_iff.2 hq')

/-! ### Main helper: the selection returns a maximal tally entry -/

theorem detect_max_general (entries : List dirEntry)
    (enum : List (String × Nat)) (hp : enum.Perm (buildTally entries))
    (hne : buildTally entries ≠ []) :
    ∃ kv, kv ∈ buildTally entries ∧
      detectDirLangWith (.ok entries) enum = .ok kv.1 ∧
      ∀ q ∈ buildTally entries, q.2 ≤ kv.2 := by
  have henum : enum ≠ [] := by
    intro h
    subst h
    exact hne hp.symm.eq_nil
  have hw := selectLoop_mem enum henum
  have hwgood := tally_good entries (selectLoop enum) (hp.subset hw)
  refine ⟨selectLoop enum, hp.subset hw, ?_, ?_⟩
  · show detectFromTally enum = .ok (selectLoop enum).1
    unfold detectFromTally
    rw [if_neg fun h0 => henum (List.length_eq_zero.1 h0), if_pos hwgood.1]
  · intro q hq
    exact selectLoop_le enum q (hp.symm.subset hq)

/-! ### The claims -/

/-- C1 (code defect): the dotless `"hpp"` entry of `langExts` breaks
the detection round trip.  Every dotted extension in the table detects
back to its owning language from a single-file directory, but a
directory holding the single file `file.hpp` fails with the not-found
error: `filepath.Ext` always returns the dot, `".hpp"` is in no
extension list, and the listed `"hpp"` itself is unreachable from any
file name. -/
theorem hpp_breaks_round_trip :
    (langExts.all fun p => p.2.all fun e =>
        e == "hpp" || (DetectDirLang (.ok [⟨"file" ++ e, false⟩]) == .ok p.1)) = true
    ∧ (∃ p ∈ langExts, p.1 = "c++" ∧ "hpp" ∈ p.2)
    ∧ filepathExt "file.hpp" = ".hpp"
    ∧ getLangByExt ".hpp" = ""
    ∧ DetectDirLang (.ok [⟨"file.hpp", false⟩]) = .error (.notFound noLangMsg) :=
  ⟨by decide, by decide, by decide, by decide, by decide⟩

/-- C2: `DetectDirLang` returns a language whose vote tally is maximal
among all tallied languages, whatever order Go's map iteration
enumerates the tally in; in particular, on a listing of three `.go`
files, two `.py` files and one unrecognized `.xyz` file it returns
`"go"` with no error. -/
theorem detect_returns_max_tally :
    (∀ (entries : List dirEntry) (enum : List (String × Nat)),
        enum.Perm (buildTally entries) → buildTally entries ≠ [] →
        ∃ kv, kv ∈ buildTally entries ∧
          detectDirLangWith (.ok entries) enum = .ok kv.1 ∧
          ∀ q ∈ buildTally entries, q.2 ≤ kv.2)
    ∧ ∀ enum : List (String × Nat), enum.Perm (buildTally demoEntries) →
        detectDirLangWith (.ok demoEntries) enum = .ok "go" := by
  refine ⟨detect_max_general, ?_⟩
  intro enum hp
  have htally : buildTally demoEntries = [("go", 3), ("python", 2)] := by decide
  obtain ⟨kv, hmem, heq, hmax⟩ :=
    detect_max_general demoEntries enum hp (by rw [htally]; simp)
  have h3 : (("go", 3) : String × Nat) ∈ buildTally demoEntries := by
    rw [htally]; simp
  have hge := hmax _ h3
  rw [htally] at hmem
  rcases List.mem_cons.1 hmem with rfl | hmem2
  · exact heq
  · rcases List.mem_cons.1 hmem2 with rfl | habs
    · exact absurd hge (by decide)
    · simp at habs

/-- C2 witness: the canonical enumeration of the demo tally. -/
theorem detect_returns_max_tally_w :
    detectDirLangWith (.ok demoEntries) (buildTally demoEntries) = .ok "go" :=
  detect_returns_max_tally.2 (buildTally demoEntries) (List.Perm.refl _)

/-- C3: the winner selection of `DetectDirLang` is the single
best-so-far pass `selectLoop`, updating on `count >= bestCount`; it
returns an entry of the tally of maximal count, and among entries tied
at the maximum the one enumerated last wins: the winner is the last
entry of the tally filtered to the maximal count. -/
theorem select_last_tied_wins (l : List (String × Nat)) (h : l ≠ []) :
    selectLoop l ∈ l ∧ (∀ kv ∈ l, kv.2 ≤ (selectLoop l).2) ∧
    (l.filter (fun kv => kv.2 == (selectLoop l).2)).getLast?
      = some (selectLoop l) :=
  ⟨selectLoop_mem l h, selectLoop_le l, selectLoop_last l h⟩

/-- C3 witness: a two-way tie, in which the entry enumerated last
wins. -/
theorem select_last_tied_wins_w :
    ([("go", 2), ("php", 2)] : List (String × Nat)) ≠ [] ∧
    (selectLoop [("go", 2), ("php", 2)]
        ∈ ([("go", 2), ("php", 2)] : List (String × Nat)) ∧
      (∀ kv ∈ ([("go", 2), ("php", 2)] : List (String × Nat)),
        kv.2 ≤ (selectLoop [("go", 2), ("php", 2)]).2) ∧
      (([("go", 2), ("php", 2)] : List (String × Nat)).filter
          (fun kv => kv.2 == (selectLoop [("go", 2), ("php", 2)]).2)).getLast?
        = some (selectLoop [("go", 2), ("php", 2)])) :=
  ⟨by decide, select_last_tied_wins _ (by decide)⟩

/-- C4 counterexample: the claim that both lookups are case-insensitive
fails on the code: `langIsSupported` does not lower-case its argument,
so it answers differently on `"GO"` and on `goToLower "GO" = "go"`. -/
theorem ruleset_lookup_case_sensitive :
    goToLower "GO" = "go"
    ∧ langIsSupported "GO" = false ∧ langIsSupported "go" = true :=
  ⟨by decide, by decide, by decide⟩

/-- C4 amended: the extension-to-language lookup is case-insensitive
(looking up any string and its lower-cased form agree), but the
language-name lookup `langIsSupported` performs no normalisation and is
case-sensitive: it accepts `"go"` and rejects `"GO"`. -/
theorem ext_lookup_case_insensitive :
    (∀ s : String, getLangByExt s = getLangByExt (goToLower s))
    ∧ langIsSupported "go" = true ∧ langIsSupported "GO" = false := by
  refine ⟨?_, by decide, by decide⟩
  intro s
  simp [getLangByExt, goToLower_idem]

/-- C5: entries that are directories or whose extension resolves to no
supported language leave the tally untouched, and a listing all of
whose entries are skipped makes `DetectDirLang` fail with the
not-found error instead of returning a language. -/
theorem skipped_entries_and_notFound :
    (∀ (t : List (String × Nat)) (f : dirEntry),
        f.isDir = true ∨ entryLang f = "" → tallyStep t f = t)
    ∧ ∀ entries : List dirEntry,
        (∀ f ∈ entries, f.isDir = true ∨ entryLang f = "") →
        DetectDirLang (.ok entries) = .error (.notFound noLangMsg) := by
  refine ⟨tallyStep_skip, ?_⟩
  intro entries h
  have hnil : buildTally entries = [] := tally_nil_of_skips entries h []
  show detectFromTally (buildTally entries) = _
  rw [hnil]
  rfl

/-- C5 witness: a subdirectory, an extensionless file and an
unrecognized extension produce the not-found failure. -/
theorem skipped_entries_and_notFound_w :
    DetectDirLang (.ok [⟨"sub", true⟩, ⟨"README", false⟩, ⟨"data.xyz", false⟩])
      = .error (.notFound noLangMsg) :=
  skipped_entries_and_notFound.2 _ (by decide)

/-- C6: a failed directory listing is propagated unchanged as the I/O
error, with no language returned and no tallying; and on a successful
listing the only possible outcomes are a detected language or the
not-found error, so detection has no other failure mode. -/
theorem io_error_propagated :
    (∀ e : String, DetectDirLang (.error e) = .error (.ioErr e))
    ∧ ∀ entries : List dirEntry,
        (∃ lang, DetectDirLang (.ok entries) = .ok lang) ∨
        DetectDirLang (.ok entries) = .error (.notFound noLangMsg) := by
  constructor
  · intro e; rfl
  · intro entries
    show (∃ lang, detectFromTally (buildTally entries) = .ok lang)
      ∨ detectFromTally (buildTally entries) = .error (.notFound noLangMsg)
    unfold detectFromTally
    by_cases h0 : (buildTally entries).length = 0
    · rw [if_pos h0]; exact Or.inr rfl
    · rw [if_neg h0]
      by_cases h1 : 0 < (selectLoop (buildTally entries)).1.length
      · rw [if_pos h1]; exact Or.inl ⟨_, rfl⟩
      · rw [if_neg h1]; exact Or.inr rfl

/-- C7: no two distinct languages of the shipped catalog declare the
same extension string, and consequently the extension lookup returns
the same result under every enumeration order of the catalog. -/
theorem ext_ownership_disjoint_det :
    (∀ p ∈ langExts, ∀ q ∈ langExts, p.1 ≠ q.1 → ∀ e ∈ p.2, e ∉ q.2)
    ∧ ∀ l : List (String × List String), l.Perm langExts →
        ∀ ext, lookupExtIn l ext = lookupExtIn langExts ext := by
  constructor
  · decide
  · intro l hl ext
    refine lookupExtIn_perm ext hl ?_
    intro p hp q hq hpe hqe
    exact langExts_pairwise p (hl.mem_iff.1 hp) q (hl.mem_iff.1 hq) ext hpe hqe

/-- C7 witness: scanning the catalog in reverse order yields the same
lookup result for `".go"`. -/
theorem ext_ownership_disjoint_det_w :
    lookupExtIn langExts.reverse ".go" = lookupExtIn langExts ".go" :=
  ext_ownership_disjoint_det.2 langExts.reverse langExts.reverse_perm ".go"

/-- C8: every language listed by `Langs` owns a non-empty rule list in
the catalog, and every extension in its extension set resolves back to
that language through `getLangByExt`. -/
theorem langs_rules_and_round_trip (name : String) (h : name ∈ Langs) :
    (∃ rules, langsLookup name = some rules ∧ rules ≠ [])
    ∧ ∀ p ∈ langExts, p.1 = name → ∀ e ∈ p.2, getLangByExt e = name := by
  have hall : ∀ n ∈ Langs,
      (langsLookup n ≠ none ∧ (langsLookup n).getD [] ≠ [])
      ∧ ∀ p ∈ langExts, p.1 = n → ∀ e ∈ p.2, getLangByExt e = n := by decide
  obtain ⟨⟨h1, h2⟩, h3⟩ := hall name h
  refine ⟨?_, h3⟩
  rcases hl : langsLookup name with _ | rules
  · exact absurd hl h1
  · rw [hl] at h2
    exact ⟨rules, rfl, by simpa using h2⟩

/-- C8 witness at `"go"`. -/
theorem langs_rules_and_round_trip_w :
    ("go" ∈ Langs) ∧
    ((∃ rules, langsLookup "go" = some rules ∧ rules ≠ [])
      ∧ ∀ p ∈ langExts, p.1 = "go" → ∀ e ∈ p.2, getLangByExt e = "go") :=
  ⟨by decide, langs_rules_and_round_trip "go" (by decide)⟩

/-- C9: the five catalog entries `"c#"`, `"c++"`, `"java"`, `"rust"`
and `"swift"` all hold exactly the canonical C-style rule list:
double-quoted backslash-escaped string, then `//` single-line comment,
then `/* */` multi-line comment, in that order. -/
theorem c_style_family_identical :
    langsLookup "c#" = some cStyle ∧ langsLookup "c++" = some cStyle
    ∧ langsLookup "java" = some cStyle ∧ langsLookup "rust" = some cStyle
    ∧ langsLookup "swift" = some cStyle
    ∧ cStyle =
      [ { kind := .str, Begin := "\"", End := "\"", Escape := "\\" },
        { kind := .sComment, Begin := "//", End := "", Escape := "" },
        { kind := .mComment, Begin := "/*", End := "*/", Escape := "" } ] :=
  ⟨by decide, by decide, by decide, by decide, by decide, rfl⟩

/-- C10: whenever the listing succeeds and at least one non-directory
entry resolves to a supported language, `DetectDirLang` returns a
non-empty language name with no error, under every enumeration order of
the tally: the trailing error return after the selection loop is
unreachable. -/
theorem detect_ok_of_recognized (entries : List dirEntry)
    (h : ∃ f ∈ entries, f.isDir = false ∧ entryLang f ≠ "")
    (enum : List (String × Nat)) (hp : enum.Perm (buildTally entries)) :
    ∃ lang, detectDirLangWith (.ok entries) enum = .ok lang ∧ lang ≠ "" := by
  have hne : buildTally entries ≠ [] := tally_ne_nil_of_entry entries [] h
  obtain ⟨kv, hmem, heq, _⟩ := detect_max_general entries enum hp hne
  exact ⟨kv.1, heq, str_ne_empty _ (tally_good entries kv hmem).1⟩

/-- C10 witness: a single `main.go` file. -/
theorem detect_ok_of_recognized_w :
    ∃ lang, detectDirLangWith (.ok [⟨"main.go", false⟩])
        (buildTally [⟨"main.go", false⟩]) = .ok lang ∧ lang ≠ "" :=
  detect_ok_of_recognized _ (by decide) _ (List.Perm.refl _)

end ApiDoc
